import Mathlib

/-!
Verification of the range-tracked semantic model and position-dispatch layer
of a language server for dependency-manifest files.

The Rust sources are embedded shallowly:

* `lsp_types::Position` / `Range` become `Position` / `Range` (the Rust field
  `end` is named `stop` here because `end` is a Lean keyword);
* `Node<T>` becomes `Node α`; string contents are modelled as `String`, with
  the character-level helpers working over `List Char`;
* machine integers (`u32` line/character numbers) are modelled as `Nat`:
  none of the verified operations can overflow them;
* fallible Rust code returning `Result` becomes `Except`;
* async code (the diagnostics fan-out) is modelled by positional collection
  of one result per entity, which is the observable behaviour of
  `try_join_all`: success keeps input order, any error fails the whole call.

Definitions whose Rust source is outside the provided files (the external
`semver` crate, the `range_for_substring` utility, the rokit extractor's
`SimpleDependency`, the resolve-context payload) are modelled from the
specification and carry a doc comment saying so.
-/

/-- Editor position: zero-based line and character, modelling
`lsp_types::Position` (`u32` fields modelled as `Nat`). -/
structure Position where
  line : Nat
  character : Nat
deriving DecidableEq, Repr

/-- The order on positions: lexicographic by line then character, as derived
by `#[derive(PartialOrd, Ord)]` on `lsp_types::Position`. -/
def Position.le (a b : Position) : Prop :=
  a.line < b.line ∨ (a.line = b.line ∧ a.character ≤ b.character)

/-- Strict lexicographic order on positions. -/
def Position.lt (a b : Position) : Prop :=
  a.line < b.line ∨ (a.line = b.line ∧ a.character < b.character)

instance : LE Position := ⟨Position.le⟩

instance : LT Position := ⟨Position.lt⟩

instance (a b : Position) : Decidable (a ≤ b) :=
  inferInstanceAs (Decidable (a.line < b.line ∨ (a.line = b.line ∧ a.character ≤ b.character)))

instance (a b : Position) : Decidable (a < b) :=
  inferInstanceAs (Decidable (a.line < b.line ∨ (a.line = b.line ∧ a.character < b.character)))

theorem Position.le_iff (a b : Position) :
    a ≤ b ↔ a.line < b.line ∨ (a.line = b.line ∧ a.character ≤ b.character) := Iff.rfl

theorem Position.lt_iff (a b : Position) :
    a < b ↔ a.line < b.line ∨ (a.line = b.line ∧ a.character < b.character) := Iff.rfl

/-- The three-way comparison on positions, modelling `Position::cmp`. -/
def posCmp (a b : Position) : Ordering :=
  (compare a.line b.line).then (compare a.character b.character)

/-- A source range, modelling `lsp_types::Range`; the Rust field `end` is
named `stop`. -/
structure Range where
  start : Position
  stop : Position
deriving DecidableEq, Repr

/-- `query_utils::range_contains`: inclusive containment on both ends. -/
def range_contains (range : Range) (pos : Position) : Bool :=
  decide (range.start ≤ pos) && decide (pos ≤ range.stop)

/-- `query_utils::range_extend`: componentwise min of starts, max of ends. -/
def range_extend (range other : Range) : Range :=
  { start := if range.start ≤ other.start then range.start else other.start
    stop := if range.stop ≤ other.stop then other.stop else range.stop }

/-- `query_structs::Node<T>`: a semantic value paired with its source range. -/
structure Node (α : Type) where
  contents : α
  range : Range
deriving DecidableEq, Repr

/-- `Node::new_raw(range, contents)`. -/
def Node.new_raw (range : Range) (contents : α) : Node α :=
  { contents := contents, range := range }

/-- `Node::contains(pos)`. -/
def Node.contains (n : Node α) (pos : Position) : Bool :=
  range_contains n.range pos

/-- `str::strip_prefix('"')` at the character-list level. -/
def stripPrefixQuote : List Char → Option (List Char)
  | [] => none
  | c :: rest => if c = '"' then some rest else none

/-- `str::strip_suffix('"')` at the character-list level. -/
def stripSuffixQuote (l : List Char) : Option (List Char) :=
  match l.getLast? with
  | some c => if c = '"' then some l.dropLast else none
  | none => none

/-- `Node::unquoted` at the character-list level: strip a leading quote, and
if the remainder also ends in a quote drop it; otherwise return the input
unchanged. -/
def unquotedChars (l : List Char) : List Char :=
  match stripPrefixQuote l with
  | some rest =>
    match stripSuffixQuote rest with
    | some inner => inner
    | none => l
  | none => l

/-- `Node::quoted`: the raw contents, delimiters included. -/
def Node.quoted (n : Node String) : String :=
  n.contents

/-- `Node::unquoted` on a string node. -/
def Node.unquoted (n : Node String) : String :=
  ⟨unquotedChars n.quoted.data⟩

/-- A semantic version value, modelling `semver::Version` (numeric
major/minor/patch; pre-release and build metadata are not exercised by any
verified property). -/
structure SemVer where
  major : Nat
  minor : Nat
  patch : Nat
deriving DecidableEq, Repr

/-- Parse a non-empty all-digit character list as a number. -/
def parseNatStrict (l : List Char) : Option Nat :=
  if l ≠ [] ∧ l.all (·.isDigit) then
    some (l.foldl (fun acc c => acc * 10 + (c.toNat - 48)) 0)
  else none

/-- Modelled from the spec: `semver::Version::parse` of the external semver
crate. Per the spec it is a standard textual parse that fails
deterministically (an `Err`, never a panic) on input that is not a semantic
version — in particular on the empty string. Modelled as
major `.` minor `.` patch with numeric components. -/
def semverParse (s : String) : Except String SemVer :=
  if s.isEmpty then .error "empty string, expected a semver version"
  else
    match s.data.splitOn '.' with
    | [a, b, c] =>
      match parseNatStrict a, parseNatStrict b, parseNatStrict c with
      | some x, some y, some z => .ok ⟨x, y, z⟩
      | _, _, _ => .error "unexpected character in version component"
    | _ => .error "expected three dot-separated components"

/-- `Node::parse::<semver::Version>()`: parse the *unquoted* text. -/
def Node.parse (n : Node String) : Except String SemVer :=
  semverParse n.unquoted

/-- `query_structs::DependencyKind`. -/
inductive DependencyKind
  | Default
  | Dev
  | Build
  | Peer
  | Optional
  | Server
deriving DecidableEq, Repr

/-- `query_structs::DependencySource`. -/
inductive DependencySource
  | Registry
  | Path (path : Node String)
  | Git (url : Node String)
deriving DecidableEq, Repr

/-- `query_structs::DependencySpec`. -/
structure DependencySpec where
  source : DependencySource
  version : Option (Node String)
  features : Option (Node (List (Node String)))
deriving DecidableEq, Repr

/-- `Node::<String>::default()`: empty contents, zero range. -/
def defaultNodeString : Node String :=
  { contents := "", range := ⟨⟨0, 0⟩, ⟨0, 0⟩⟩ }

/-- `Node::<DependencySpec>::default()`. -/
def defaultDependencySpecNode : Node DependencySpec :=
  { contents := ⟨.Registry, none, none⟩, range := ⟨⟨0, 0⟩, ⟨0, 0⟩⟩ }

/-- `impl Versioned for DependencySpec`: parse the version node's raw
contents (note: `contents.parse()`, no unquoting), defaulting a missing
version to the default node, whose contents are the empty string. -/
def DependencySpec.parse_version (s : DependencySpec) : Except String SemVer :=
  semverParse (s.version.getD defaultNodeString).contents

/-- `query_structs::Dependency`: progressive completeness, `Partial` while
only the name is known, `Full` once a spec value parsed. -/
inductive Dependency
  | Partial (kind : DependencyKind) (name : Node String)
  | Full (kind : DependencyKind) (name : Node String) (spec : Node DependencySpec)
deriving DecidableEq, Repr

/-- `Dependency::kind`. -/
def Dependency.kind : Dependency → DependencyKind
  | .Partial kind _ => kind
  | .Full kind _ _ => kind

/-- `Dependency::name`. -/
def Dependency.name : Dependency → Node String
  | .Partial _ name => name
  | .Full _ name _ => name

/-- `Dependency::spec`. -/
def Dependency.spec : Dependency → Option (Node DependencySpec)
  | .Partial _ _ => none
  | .Full _ _ spec => some spec

/-- The comparator closure inside `Dependency::sort_vec`: compare the spec
ranges (start, then end); a spec-bearing entry sorts before a spec-less one;
two spec-less entries compare `Equal`. -/
def Dependency.specCmp (a b : Dependency) : Ordering :=
  match a.spec, b.spec with
  | some sa, some sb =>
    (posCmp sa.range.start sb.range.start).then (posCmp sa.range.stop sb.range.stop)
  | some _, none => .lt
  | none, some _ => .gt
  | none, none => .eq

/-- `a` may stay before `b` under the comparator (`cmp(a, b) != Greater`). -/
def Dependency.specLe (a b : Dependency) : Bool :=
  decide (Dependency.specCmp a b ≠ .gt)

/-- One insertion step of a stable insertion sort under `specLe`. -/
def insertDep (a : Dependency) : List Dependency → List Dependency
  | [] => [a]
  | b :: t => if Dependency.specLe a b then a :: b :: t else b :: insertDep a t

/-- `Dependency::sort_vec`: `slice::sort_by` with the `specCmp` comparator.
Rust's `sort_by` is a stable sort, and `specCmp` is a total preorder
comparator, so the result coincides with stable insertion sort. -/
def Dependency.sort_vec (l : List Dependency) : List Dependency :=
  l.foldr insertDep []

/-- `Dependency::find_at_pos`: first entry whose name range or spec range
contains the position. -/
def Dependency.find_at_pos (vec : List Dependency) (pos : Position) : Option Dependency :=
  vec.find? (fun dep => dep.name.contains pos || dep.spec.any (fun s => s.contains pos))

/-- `impl Versioned for Dependency`: funnel through the (possibly default)
spec node's `parse_version`. -/
def Dependency.parse_version (d : Dependency) : Except String SemVer :=
  ((d.spec.getD defaultDependencySpecNode).contents).parse_version

/-- `query_structs::Tool`: a tool name and its quoted spec string of the
grammar `owner[/repository[@version]]`. -/
structure Tool where
  name : Node String
  spec : Node String
deriving DecidableEq, Repr

/-- `str::split_once(c)` at the character-list level: split at the first
occurrence of `c`, or `none` when `c` does not occur. -/
def splitOnceChar (c : Char) : List Char → Option (List Char × List Char)
  | [] => none
  | x :: xs =>
    if x = c then some ([], xs)
    else (splitOnceChar c xs).map (fun p => (x :: p.1, p.2))

/-- Index of the first occurrence of `sub` in `l` (`none` if absent). -/
def findSubAux (sub : List Char) : List Char → Option Nat
  | [] => if sub.isEmpty then some 0 else none
  | x :: t =>
    if sub.isPrefixOf (x :: t) then some 0
    else (findSubAux sub t).map (· + 1)

/-- Index of the first occurrence of `sub` in `full` at or after `start`. -/
def findFrom (full sub : List Char) (start : Nat) : Option Nat :=
  (findSubAux sub (full.drop start)).map (· + start)

/-- Modelled from the spec: `range_for_substring` is imported by
`query_structs.rs` but its source file is not among the provided sources.
Per the spec it maps a component substring back to a sub-range of the node's
range by locating the first unconsumed occurrence of the substring at or
after the already-consumed offset in the original quoted text, preserving
left-to-right order; tool specs are single-line, so sub-ranges stay on the
range's start line. Returns the sub-range with the new consumed offset; if
the substring does not occur at or after the cursor (never the case for the
components produced by `parsed_spec`), the whole range and the unchanged
cursor are returned. -/
def range_for_substring (range : Range) (full sub : List Char) (cursor : Nat) : Range × Nat :=
  match findFrom full sub cursor with
  | some i =>
    ({ start := { line := range.start.line, character := range.start.character + i }
       stop := { line := range.start.line, character := range.start.character + i + sub.length } },
     i + sub.length)
  | none => (range, cursor)

/-- `query_structs::ToolSpecParsed`: incremental parse of a tool spec;
the owner is always present. -/
structure ToolSpecParsed where
  owner : Node String
  repository : Option (Node String)
  version : Option (Node String)
deriving DecidableEq, Repr

/-- `Tool::parsed_spec`: split the unquoted spec at the first `/`, then the
remainder at the first `@`, and map each component back to a sub-range of
the spec node's range. -/
def Tool.parsed_spec (t : Tool) : ToolSpecParsed :=
  let q := t.spec.quoted.data
  let raw := unquotedChars q
  match splitOnceChar '/' raw with
  | some (owner, rest) =>
    match splitOnceChar '@' rest with
    | some (repository, version) =>
      let o := range_for_substring t.spec.range q owner 0
      let r := range_for_substring t.spec.range q repository o.2
      let v := range_for_substring t.spec.range q version r.2
      { owner := Node.new_raw o.1 ⟨owner⟩
        repository := some (Node.new_raw r.1 ⟨repository⟩)
        version := some (Node.new_raw v.1 ⟨version⟩) }
    | none =>
      let o := range_for_substring t.spec.range q owner 0
      let r := range_for_substring t.spec.range q rest o.2
      { owner := Node.new_raw o.1 ⟨owner⟩
        repository := some (Node.new_raw r.1 ⟨rest⟩)
        version := none }
  | none =>
    let o := range_for_substring t.spec.range q raw 0
    { owner := Node.new_raw o.1 ⟨raw⟩
      repository := none
      version := none }

/-- `query_structs::ToolSpecParsedFull`: a fully parsed tool spec. -/
structure ToolSpecParsedFull where
  owner : Node String
  repository : Node String
  version : Node String
deriving DecidableEq, Repr

/-- `ToolSpecParsedFull::range`: the union of the owner and version ranges. -/
def ToolSpecParsedFull.range (p : ToolSpecParsedFull) : Range :=
  range_extend p.owner.range p.version.range

/-- `ToolSpecParsed::into_full`: promote, failing if the repository or the
version is absent. -/
def ToolSpecParsed.into_full (p : ToolSpecParsed) : Option ToolSpecParsedFull :=
  match p.repository, p.version with
  | some repository, some version =>
    some { owner := p.owner, repository := repository, version := version }
  | _, _ => none

/-- `impl Versioned for ToolSpecParsed`: parse the (possibly default)
version node via `Node::parse`, which unquotes first. -/
def ToolSpecParsed.parse_version (p : ToolSpecParsed) : Except String SemVer :=
  (p.version.getD defaultNodeString).parse

/-- `impl Versioned for Tool`. -/
def Tool.parse_version (t : Tool) : Except String SemVer :=
  t.parsed_spec.parse_version

/-- `impl Versioned for ToolSpecParsedFull`. -/
def ToolSpecParsedFull.parse_version (p : ToolSpecParsedFull) : Except String SemVer :=
  p.version.parse

/-- A document URI; only the final path segment matters to the handler.
Modelled from the spec: `LspUriExt::file_name` (its source is not among the
provided files) returns the URI's file name segment when it has one. -/
structure Url where
  fileName : Option String
deriving DecidableEq, Repr

/-- An immutable document snapshot from the document store. -/
structure Document where
  text : String
deriving DecidableEq, Repr

/-- A protocol-level request failure (`tower_lsp::jsonrpc::Error`). -/
structure LspError where
  message : String
deriving DecidableEq, Repr

/-- Hover content, opaque to the dispatch layer. -/
structure Hover where
  contents : String
deriving DecidableEq, Repr

/-- A completion candidate, opaque to the dispatch layer. -/
structure CompletionItem where
  label : String
deriving DecidableEq, Repr

/-- `lsp_types::CompletionResponse`; the handler only builds the `Array`
variant. -/
inductive CompletionResponse
  | array (items : List CompletionItem)
deriving DecidableEq, Repr

/-- Modelled from the spec: the closed tagged union of fix kinds
(`CodeActionMetadata`, whose source is not among the provided files) that a
diagnostic serializes into its opaque resolution payload. -/
inductive CodeActionMetadata
  | latestVersion (uri : String) (range : Range) (newText : String)
deriving DecidableEq, Repr

/-- Modelled from the spec: the opaque, versioned resolution payload a
diagnostic may carry — either a faithful encoding of a metadata value or
garbled/unknown data. -/
inductive ResolvePayload
  | valid (m : CodeActionMetadata)
  | garbled
deriving DecidableEq, Repr

/-- Modelled from the spec: `ResolveContext::<CodeActionMetadata>::try_from`
decodes the payload back to the original typed value, or fails totally
(never a crash) on unknown/garbled data. -/
def resolveTryFrom : ResolvePayload → Except String CodeActionMetadata
  | .valid m => .ok m
  | .garbled => .error "unrecognized resolve payload"

/-- `lsp_types::Diagnostic`, reduced to the parts the handler reads: a
message and the optional opaque resolution payload in `data`. -/
structure Diagnostic where
  message : String
  data : Option ResolvePayload
deriving DecidableEq, Repr

/-- A materialized editor action (`CodeActionOrCommand`), keeping the decoded
metadata and the diagnostic it came from. -/
structure CodeActionOrCommand where
  metadata : CodeActionMetadata
  diagnostic : Diagnostic
deriving DecidableEq, Repr

/-- `CodeActionMetadata::into_code_action(diag)`. -/
def intoCodeAction (m : CodeActionMetadata) (diag : Diagnostic) : CodeActionOrCommand :=
  { metadata := m, diagnostic := diag }

/-- Modelled from the spec: the rokit extractor's entity type
(`parser::SimpleDependency`, whose source is not among the provided files):
a name node and a quoted spec node, with the same `find_at_pos` and spec
parsing as `Tool`, the parsed components being named author/name/version. -/
structure SimpleDependency where
  name : Node String
  spec : Node String
deriving DecidableEq, Repr

/-- Modelled from the spec: the parsed spec of a `SimpleDependency` —
the same incremental `owner[/repository[@version]]` parse as
`ToolSpecParsed`, with the components named author/name/version. -/
structure SimpleSpecParsed where
  author : Node String
  name : Option (Node String)
  version : Option (Node String)
deriving DecidableEq, Repr

/-- `SimpleDependency::find_at_pos`: first entry whose name or spec range
contains the position. -/
def SimpleDependency.find_at_pos (vec : List SimpleDependency) (pos : Position) :
    Option SimpleDependency :=
  vec.find? (fun dep => dep.name.contains pos || dep.spec.contains pos)

/-- `SimpleDependency::parsed_spec`: same algorithm as `Tool::parsed_spec`. -/
def SimpleDependency.parsed_spec (t : SimpleDependency) : SimpleSpecParsed :=
  let q := t.spec.contents.data
  let raw := unquotedChars q
  match splitOnceChar '/' raw with
  | some (author, rest) =>
    match splitOnceChar '@' rest with
    | some (name, version) =>
      let o := range_for_substring t.spec.range q author 0
      let r := range_for_substring t.spec.range q name o.2
      let v := range_for_substring t.spec.range q version r.2
      { author := Node.new_raw o.1 ⟨author⟩
        name := some (Node.new_raw r.1 ⟨name⟩)
        version := some (Node.new_raw v.1 ⟨version⟩) }
    | none =>
      let o := range_for_substring t.spec.range q author 0
      let r := range_for_substring t.spec.range q rest o.2
      { author := Node.new_raw o.1 ⟨author⟩
        name := some (Node.new_raw r.1 ⟨rest⟩)
        version := none }
  | none =>
    let o := range_for_substring t.spec.range q raw 0
    { author := Node.new_raw o.1 ⟨raw⟩
      name := none
      version := none }

/-- `futures::future::try_join_all`, observationally: the call succeeds with
one result per input in input order iff every per-entity future succeeds,
and fails as a whole as soon as any future fails. -/
def tryJoinAll : List (Except ε α) → Except ε (List α)
  | [] => .ok []
  | x :: xs =>
    match x with
    | .error e => .error e
    | .ok a =>
      match tryJoinAll xs with
      | .error e => .error e
      | .ok rest => .ok (a :: rest)

/-- ASCII lowercasing of a single character, as in
`u8::to_ascii_lowercase`. -/
def asciiLower (c : Char) : Char :=
  if 'A' ≤ c ∧ c ≤ 'Z' then Char.ofNat (c.toNat + 32) else c

/-- `str::eq_ignore_ascii_case`. -/
def eqIgnoreAsciiCase (a b : String) : Bool :=
  a.data.map asciiLower == b.data.map asciiLower

/-- The file names recognized by the rokit handler (the closure inside
`Rokit::get_document`). -/
def isRelevantFileName (f : String) : Bool :=
  eqIgnoreAsciiCase f "rokit.toml" || eqIgnoreAsciiCase f "aftman.toml"

/-- `tools::rokit::Rokit`: the handler's state — the document store plus the
outbound content-producing collaborators (extraction and the four fetches),
kept abstract as functions so theorems quantify over every collaborator
behaviour. -/
structure Rokit where
  documents : Url → Option Document
  queryRokitTomlDependencies : Document → List SimpleDependency
  hoverFetch : Document → SimpleDependency → Except LspError (Option Hover)
  completionVersionFetch : Document → SimpleDependency → Except LspError CompletionResponse
  completionNameFetch : Document → SimpleDependency → Except LspError CompletionResponse
  completionAuthorFetch : Document → SimpleDependency → Except LspError CompletionResponse
  diagnosticsFetch : Document → SimpleDependency → Except LspError (List Diagnostic)

/-- `Rokit::get_document`: only documents named `rokit.toml` or
`aftman.toml` (case-insensitively) are looked up in the store. -/
def Rokit.get_document (h : Rokit) (uri : Url) : Option Document :=
  if uri.fileName.any isRelevantFileName then h.documents uri else none

/-- `HoverParams`, reduced to the parts the handler reads. -/
structure HoverParams where
  uri : Url
  pos : Position
deriving DecidableEq, Repr

/-- `CompletionParams`, reduced to the parts the handler reads. -/
structure CompletionParams where
  uri : Url
  pos : Position
deriving DecidableEq, Repr

/-- `DocumentDiagnosticParams`, reduced to the parts the handler reads. -/
structure DocumentDiagnosticParams where
  uri : Url
deriving DecidableEq, Repr

/-- `CodeActionContext`: the diagnostics the client sends back. -/
structure CodeActionContext where
  diagnostics : List Diagnostic
deriving DecidableEq, Repr

/-- `CodeActionParams`, reduced to the parts the handler reads (the document
URI is present in the request but `Rokit::code_action` never reads it). -/
structure CodeActionParams where
  uri : Url
  context : CodeActionContext
deriving DecidableEq, Repr

/-- `Rokit::hover`. -/
def Rokit.hover (h : Rokit) (params : HoverParams) : Except LspError (Option Hover) :=
  match h.get_document params.uri with
  | none => .ok none
  | some doc =>
    match SimpleDependency.find_at_pos (h.queryRokitTomlDependencies doc) params.pos with
    | none => .ok none
    | some found => h.hoverFetch doc found

/-- `Rokit::completion`: find the dependency at the cursor, then test, in
order, the version, name, and author sub-ranges (the author arm also fires
when the author text is empty but the whole spec range contains the
cursor). -/
def Rokit.completion (h : Rokit) (params : CompletionParams) :
    Except LspError CompletionResponse :=
  match h.get_document params.uri with
  | none => .ok (.array [])
  | some doc =>
    match SimpleDependency.find_at_pos (h.queryRokitTomlDependencies doc) params.pos with
    | none => .ok (.array [])
    | some found =>
      let parsed := found.parsed_spec
      if parsed.version.any (fun v => v.contains params.pos) then
        h.completionVersionFetch doc found
      else if parsed.name.any (fun n => n.contains params.pos) then
        h.completionNameFetch doc found
      else if parsed.author.contains params.pos
          || ((Node.unquoted parsed.author).isEmpty && found.spec.contains params.pos) then
        h.completionAuthorFetch doc found
      else
        .ok (.array [])

/-- `Rokit::diagnostics`: fan out one check per extracted dependency and
flatten the per-entity lists in extraction order. -/
def Rokit.diagnostics (h : Rokit) (params : DocumentDiagnosticParams) :
    Except LspError (List Diagnostic) :=
  match h.get_document params.uri with
  | none => .ok []
  | some doc =>
    let dependencies := h.queryRokitTomlDependencies doc
    if dependencies.isEmpty then .ok []
    else
      match tryJoinAll (dependencies.map (fun tool => h.diagnosticsFetch doc tool)) with
      | .error e => .error e
      | .ok results => .ok results.flatten

/-- `Rokit::code_action`: decode each supplied diagnostic's payload; a
successful decode contributes one materialized action, failures are skipped.
The document URI is never consulted. -/
def Rokit.code_action (_h : Rokit) (params : CodeActionParams) :
    Except LspError (List CodeActionOrCommand) :=
  .ok (params.context.diagnostics.filterMap (fun diag =>
    match diag.data with
    | some payload =>
      match resolveTryFrom payload with
      | .ok m => some (intoCodeAction m diag)
      | .error _ => none
    | none => none))

/-! ### Helper lemmas: quote stripping, splitting, substring search -/

theorem unquotedChars_quote_pair (l : List Char) :
    unquotedChars ('"' :: (l ++ ['"'])) = l := by
  simp [unquotedChars, stripPrefixQuote, stripSuffixQuote]

theorem unquotedChars_eq_self (l : List Char)
    (h : ∀ m : List Char, l ≠ '"' :: (m ++ ['"'])) : unquotedChars l = l := by
  cases l with
  | nil => rfl
  | cons c rest =>
    by_cases hc : c = '"'
    · subst hc
      rcases List.eq_nil_or_concat rest with hr | ⟨m, a, hm⟩
      · subst hr; rfl
      · rw [List.concat_eq_append] at hm
        subst hm
        by_cases ha : a = '"'
        · subst ha; exact absurd rfl (h m)
        · simp [unquotedChars, stripPrefixQuote, stripSuffixQuote, ha]
    · simp [unquotedChars, stripPrefixQuote, hc]

theorem splitOnceChar_eq_none {c : Char} {l : List Char} :
    splitOnceChar c l = none ↔ c ∉ l := by
  induction l with
  | nil => simp [splitOnceChar]
  | cons x xs ih =>
    simp only [splitOnceChar, List.mem_cons]
    by_cases hx : x = c
    · subst hx; simp
    · rw [if_neg hx, Option.map_eq_none', ih]
      constructor
      · rintro h (h1 | h2)
        · exact hx h1.symm
        · exact h h2
      · intro h h2
        exact h (Or.inr h2)

theorem splitOnceChar_eq_some {c : Char} {l a b : List Char}
    (h : splitOnceChar c l = some (a, b)) : l = a ++ c :: b := by
  induction l generalizing a b with
  | nil => simp [splitOnceChar] at h
  | cons x xs ih =>
    by_cases hx : x = c
    · subst hx
      rw [splitOnceChar, if_pos rfl] at h
      simp only [Option.some.injEq, Prod.mk.injEq] at h
      obtain ⟨h1, h2⟩ := h
      subst h1
      subst h2
      rfl
    · rw [splitOnceChar, if_neg hx] at h
      cases hs : splitOnceChar c xs with
      | none => rw [hs] at h; simp at h
      | some p =>
        rcases p with ⟨p1, p2⟩
        rw [hs] at h
        simp only [Option.map_some', Option.some.injEq, Prod.mk.injEq] at h
        obtain ⟨h1, h2⟩ := h
        subst h1
        subst h2
        rw [List.cons_append, ih hs]

theorem unquotedChars_embedded (l : List Char) :
    ∃ pre post : List Char, l = pre ++ unquotedChars l ++ post := by
  by_cases h : ∃ m : List Char, l = '"' :: (m ++ ['"'])
  · rcases h with ⟨m, hm⟩
    subst hm
    refine ⟨['"'], ['"'], ?_⟩
    rw [unquotedChars_quote_pair]
    rfl
  · push_neg at h
    exact ⟨[], [], by rw [unquotedChars_eq_self l h]; simp⟩

theorem isPrefixOf_append_self (a t : List Char) : a.isPrefixOf (a ++ t) = true := by
  rw [List.isPrefixOf_iff_prefix]
  exact List.prefix_append a t

theorem findSubAux_self (sub l2 : List Char) : findSubAux sub (sub ++ l2) = some 0 := by
  cases h : sub ++ l2 with
  | nil =>
    have hsub : sub = [] := by
      cases sub with
      | nil => rfl
      | cons c cs => simp at h
    subst hsub
    simp [findSubAux]
  | cons x t =>
    have hp : sub.isPrefixOf (x :: t) = true := h ▸ isPrefixOf_append_self sub l2
    rw [findSubAux, if_pos hp]

theorem findSubAux_of_occurrence (sub l2 : List Char) :
    ∀ l1 : List Char, ∃ i, findSubAux sub (l1 ++ (sub ++ l2)) = some i ∧ i ≤ l1.length := by
  intro l1
  induction l1 with
  | nil => exact ⟨0, by simpa using findSubAux_self sub l2, Nat.le_refl 0⟩
  | cons x t ih =>
    rcases ih with ⟨i, hi, hlen⟩
    by_cases hp : sub.isPrefixOf (x :: (t ++ (sub ++ l2))) = true
    · refine ⟨0, ?_, Nat.zero_le _⟩
      rw [List.cons_append, findSubAux, if_pos hp]
    · refine ⟨i + 1, ?_, by simpa using Nat.succ_le_succ hlen⟩
      rw [List.cons_append, findSubAux, if_neg hp, hi]
      rfl

theorem findFrom_of_occurrence {full sub l1 l2 : List Char} {start : Nat}
    (hfull : full = l1 ++ (sub ++ l2)) (hstart : start ≤ l1.length) :
    ∃ j, findFrom full sub start = some j ∧ start ≤ j ∧ j ≤ l1.length := by
  subst hfull
  rcases findSubAux_of_occurrence sub l2 (l1.drop start) with ⟨i, hi, hlen⟩
  refine ⟨i + start, ?_, Nat.le_add_left start i, ?_⟩
  · show (findSubAux sub ((l1 ++ (sub ++ l2)).drop start)).map (· + start) = some (i + start)
    rw [List.drop_append_of_le_length hstart, hi]
    rfl
  · have hd : i ≤ l1.length - start := by simpa [List.length_drop] using hlen
    omega

/-! ### Concrete fixtures used by witnesses and counterexamples -/

/-- A node holding the quoted text `"1.2.3"`. -/
def nodeQuoted123 : Node String :=
  ⟨"\"1.2.3\"", ⟨⟨0, 0⟩, ⟨0, 7⟩⟩⟩

/-- A node holding the bare text `1.2.3` (unterminated-string tolerance). -/
def nodeBare123 : Node String :=
  ⟨"1.2.3", ⟨⟨0, 0⟩, ⟨0, 5⟩⟩⟩

/-- A tool whose spec is the full `"owner/repo@1.0.0"` at columns 10–28. -/
def toolA : Tool :=
  { name := ⟨"\"tool\"", ⟨⟨0, 0⟩, ⟨0, 6⟩⟩⟩
    spec := ⟨"\"owner/repo@1.0.0\"", ⟨⟨0, 10⟩, ⟨0, 28⟩⟩⟩ }

/-- A tool whose spec is just `"owner"` (no slash) at columns 8–15. -/
def toolB : Tool :=
  { name := ⟨"\"tool\"", ⟨⟨1, 0⟩, ⟨1, 6⟩⟩⟩
    spec := ⟨"\"owner\"", ⟨⟨1, 8⟩, ⟨1, 15⟩⟩⟩ }

/-- A tool whose spec repeats one token: `"owner/owner@owner"`. -/
def toolC : Tool :=
  { name := ⟨"\"tool\"", ⟨⟨2, 0⟩, ⟨2, 6⟩⟩⟩
    spec := ⟨"\"owner/owner@owner\"", ⟨⟨2, 8⟩, ⟨2, 27⟩⟩⟩ }

/-- A tool whose spec has an `@` but no `/`: `"owner@1.0.0"`. -/
def toolD : Tool :=
  { name := ⟨"\"tool\"", ⟨⟨3, 0⟩, ⟨3, 6⟩⟩⟩
    spec := ⟨"\"owner@1.0.0\"", ⟨⟨3, 8⟩, ⟨3, 21⟩⟩⟩ }

/-- A partial dependency used to exercise `find_at_pos`. -/
def depP : Dependency :=
  .Partial .Default ⟨"\"dep\"", ⟨⟨0, 0⟩, ⟨0, 5⟩⟩⟩

/-! ### C9 -/

/-- C9: `unquoted()` strips exactly one matching pair of leading and
trailing double quotes when both are present (first conjunct), and
otherwise returns the text unchanged (second conjunct); concretely,
`unquoted("\"1.2.3\"") = "1.2.3"` and `unquoted("1.2.3") = "1.2.3"`, with
no panic on missing quotes (the embedding is a total function). -/
theorem unquoted_strips_exactly_one_quote_pair :
    (∀ l : List Char, unquotedChars ('"' :: (l ++ ['"'])) = l) ∧
    (∀ l : List Char, (∀ m : List Char, l ≠ '"' :: (m ++ ['"'])) → unquotedChars l = l) ∧
    Node.unquoted nodeQuoted123 = "1.2.3" ∧
    Node.unquoted nodeBare123 = "1.2.3" := by
  refine ⟨unquotedChars_quote_pair, unquotedChars_eq_self, ?_, ?_⟩ <;> decide

/-- Witness for C9 at the concrete quoteless input `['1']`. -/
theorem unquoted_strips_exactly_one_quote_pair_witness :
    unquotedChars ['1'] = ['1'] :=
  unquoted_strips_exactly_one_quote_pair.2.1 ['1'] (by
    intro m hm
    injection hm with h1 h2
    exact absurd h1 (by decide))

/-! ### C10 -/

/-- C10: a tool spec containing `@` but no `/` parses with the entire string
as the owner and no repository or version: the `@` version separator is only
recognized in the text after a `/` separator. -/
theorem at_sign_without_slash_stays_in_owner (t : Tool)
    (hat : '@' ∈ unquotedChars t.spec.quoted.data)
    (hslash : '/' ∉ unquotedChars t.spec.quoted.data) :
    t.parsed_spec.owner.contents = String.mk (unquotedChars t.spec.quoted.data) ∧
    t.parsed_spec.repository = none ∧
    t.parsed_spec.version = none := by
  have hnone : splitOnceChar '/' (unquotedChars t.spec.quoted.data) = none :=
    splitOnceChar_eq_none.mpr hslash
  simp only [Tool.parsed_spec, hnone]
  exact ⟨rfl, trivial, trivial⟩

/-- Witness for C10 at the concrete spec `"owner@1.0.0"`. -/
theorem at_sign_without_slash_stays_in_owner_witness :
    toolD.parsed_spec.owner.contents = String.mk (unquotedChars toolD.spec.quoted.data) ∧
    toolD.parsed_spec.repository = none ∧
    toolD.parsed_spec.version = none :=
  at_sign_without_slash_stays_in_owner toolD (by decide) (by decide)

/-! ### C7 -/

/-- C7: `"owner/repo@1.0.0"` parses into owner/repo/version with correct,
non-overlapping sub-ranges in left-to-right order and promotes via
`into_full`; `"owner"` (no slash) parses with no repository and no version
and fails to promote. -/
theorem tool_spec_parse_concrete :
    Tool.parsed_spec toolA =
      { owner := ⟨"owner", ⟨⟨0, 11⟩, ⟨0, 16⟩⟩⟩
        repository := some ⟨"repo", ⟨⟨0, 17⟩, ⟨0, 21⟩⟩⟩
        version := some ⟨"1.0.0", ⟨⟨0, 22⟩, ⟨0, 27⟩⟩⟩ } ∧
    (Tool.parsed_spec toolA).into_full =
      some ⟨⟨"owner", ⟨⟨0, 11⟩, ⟨0, 16⟩⟩⟩, ⟨"repo", ⟨⟨0, 17⟩, ⟨0, 21⟩⟩⟩,
        ⟨"1.0.0", ⟨⟨0, 22⟩, ⟨0, 27⟩⟩⟩⟩ ∧
    (Tool.parsed_spec toolA).owner.range.stop <
      ((Tool.parsed_spec toolA).repository.getD defaultNodeString).range.start ∧
    ((Tool.parsed_spec toolA).repository.getD defaultNodeString).range.stop <
      ((Tool.parsed_spec toolA).version.getD defaultNodeString).range.start ∧
    Tool.parsed_spec toolB =
      { owner := ⟨"owner", ⟨⟨1, 9⟩, ⟨1, 14⟩⟩⟩, repository := none, version := none } ∧
    (Tool.parsed_spec toolB).into_full = none := by
  decide

/-! ### C8 -/

/-- C8: every entity type with the version capability funnels a missing
version into parsing the empty string, and the version parse of the empty
string fails deterministically (an error value, never a panic — the
embedding is a total function — and never a success). -/
theorem empty_version_parse_fails :
    (∃ e, semverParse "" = .error e) ∧
    (∀ (src : DependencySource) (feats : Option (Node (List (Node String)))),
      DependencySpec.parse_version ⟨src, none, feats⟩ = semverParse "") ∧
    (∀ (kind : DependencyKind) (name : Node String),
      (Dependency.Partial kind name).parse_version = semverParse "") ∧
    (∀ (owner : Node String) (repo : Option (Node String)),
      ToolSpecParsed.parse_version ⟨owner, repo, none⟩ = semverParse "") ∧
    (∀ t : Tool, t.parsed_spec.version = none → t.parse_version = semverParse "") ∧
    (∀ p : ToolSpecParsedFull, p.version.contents = "" → ∃ e, p.parse_version = .error e) := by
  refine ⟨⟨"empty string, expected a semver version", rfl⟩, fun src feats => rfl,
    fun kind name => rfl, fun owner repo => rfl, fun t h => ?_, fun p h => ?_⟩
  · simp only [Tool.parse_version, ToolSpecParsed.parse_version, h]
    rfl
  · refine ⟨"empty string, expected a semver version", ?_⟩
    simp only [ToolSpecParsedFull.parse_version, Node.parse, Node.unquoted, Node.quoted, h]
    rfl

/-- Witness for C8: a fully parsed tool spec whose version text is empty
fails to parse. -/
theorem empty_version_parse_fails_witness :
    ∃ e, (ToolSpecParsedFull.mk ⟨"o", ⟨⟨4, 1⟩, ⟨4, 2⟩⟩⟩ ⟨"r", ⟨⟨4, 3⟩, ⟨4, 4⟩⟩⟩
      ⟨"", ⟨⟨4, 5⟩, ⟨4, 5⟩⟩⟩).parse_version = .error e :=
  empty_version_parse_fails.2.2.2.2.2 _ rfl

/-! ### C5 -/

/-- The predicate closure inside `Dependency::find_at_pos`. -/
def coversDep (d : Dependency) (pos : Position) : Bool :=
  d.name.contains pos || d.spec.any (fun s => s.contains pos)

theorem find_at_pos_eq (l : List Dependency) (pos : Position) :
    Dependency.find_at_pos l pos = l.find? (fun d => coversDep d pos) := rfl

/-- Reflexivity of the position order. -/
theorem Position.le_refl (a : Position) : a ≤ a :=
  Or.inr ⟨rfl, Nat.le_refl _⟩

/-- C5: `find_at_pos` returns the first entity, in the given iteration
order, whose name range or spec range contains the position (second
conjunct), returns nothing iff no entity's range covers the position (first
conjunct); range containment is `start ≤ pos ≤ stop`, inclusive on both
ends, so an exact boundary cursor counts as contained (last conjuncts). -/
theorem find_at_pos_first_containing :
    (∀ (l : List Dependency) (pos : Position),
      Dependency.find_at_pos l pos = none ↔ ∀ d ∈ l, coversDep d pos = false) ∧
    (∀ (l : List Dependency) (pos : Position) (d : Dependency),
      Dependency.find_at_pos l pos = some d →
        coversDep d pos = true ∧
        ∃ l1 l2, l = l1 ++ d :: l2 ∧ ∀ e ∈ l1, coversDep e pos = false) ∧
    (∀ (r : Range) (p : Position), range_contains r p = true ↔ r.start ≤ p ∧ p ≤ r.stop) ∧
    (∀ r : Range, r.start ≤ r.stop →
      range_contains r r.start = true ∧ range_contains r r.stop = true) := by
  refine ⟨fun l pos => ?_, fun l pos d h => ?_, fun r p => ?_, fun r h => ?_⟩
  · rw [find_at_pos_eq, List.find?_eq_none]
    simp
  · rw [find_at_pos_eq, List.find?_eq_some] at h
    obtain ⟨hp, as, bs, heq, hprev⟩ := h
    exact ⟨hp, as, bs, heq, fun e he => by simpa using hprev e he⟩
  · simp [range_contains]
  · constructor <;> simp [range_contains, h, Position.le_refl]

/-- Witness for C5: the single-element list hit at an interior position. -/
theorem find_at_pos_first_containing_witness :
    coversDep depP ⟨0, 2⟩ = true ∧
    ∃ l1 l2, [depP] = l1 ++ depP :: l2 ∧ ∀ e ∈ l1, coversDep e ⟨0, 2⟩ = false :=
  find_at_pos_first_containing.2.1 [depP] ⟨0, 2⟩ depP (by decide)

/-! ### C3 -/

/-- C3: when a tool spec splits into owner/repository/version (with
non-empty owner and repository, as in the repeated-token spec
`"owner/owner@owner"`), the three computed sub-ranges sit on the spec's
line at three strictly increasing start offsets — each component is located
at the first unconsumed occurrence at or after the already-consumed offset,
never three copies of the first occurrence's range. -/
theorem repeated_tokens_get_distinct_ranges (t : Tool)
    (owner rest repository version : List Char)
    (h1 : splitOnceChar '/' (unquotedChars t.spec.quoted.data) = some (owner, rest))
    (h2 : splitOnceChar '@' rest = some (repository, version))
    (ho : owner ≠ []) (hr : repository ≠ []) :
    ∃ rnode vnode : Node String,
      t.parsed_spec.repository = some rnode ∧
      t.parsed_spec.version = some vnode ∧
      t.parsed_spec.owner.range.start.line = t.spec.range.start.line ∧
      rnode.range.start.line = t.spec.range.start.line ∧
      vnode.range.start.line = t.spec.range.start.line ∧
      t.parsed_spec.owner.range.start.character < rnode.range.start.character ∧
      rnode.range.start.character < vnode.range.start.character := by
  obtain ⟨pre, post, hq⟩ := unquotedChars_embedded t.spec.quoted.data
  have hraw := splitOnceChar_eq_some h1
  have hrest := splitOnceChar_eq_some h2
  have hO : t.spec.quoted.data =
      pre ++ (owner ++ ('/' :: (repository ++ ('@' :: (version ++ post))))) := by
    conv_lhs => rw [hq, hraw, hrest]
    simp [List.append_assoc]
  have hR : t.spec.quoted.data =
      (pre ++ (owner ++ ['/'])) ++ (repository ++ ('@' :: (version ++ post))) := by
    rw [hO]
    simp [List.append_assoc]
  have hV : t.spec.quoted.data =
      ((pre ++ (owner ++ ['/'])) ++ (repository ++ ['@'])) ++ (version ++ post) := by
    rw [hO]
    simp [List.append_assoc]
  obtain ⟨j0, hj0, hj0l, hj0u⟩ := findFrom_of_occurrence hO (Nat.zero_le pre.length)
  have hsR : j0 + owner.length ≤ (pre ++ (owner ++ ['/'])).length := by
    simp only [List.length_append, List.length_cons, List.length_nil]
    omega
  obtain ⟨j1, hj1, hj1l, hj1u⟩ := findFrom_of_occurrence hR hsR
  have hsV : j1 + repository.length ≤ ((pre ++ (owner ++ ['/'])) ++ (repository ++ ['@'])).length := by
    simp only [List.length_append, List.length_cons, List.length_nil] at hj1u ⊢
    omega
  obtain ⟨j2, hj2, hj2l, hj2u⟩ := findFrom_of_occurrence hV hsV
  have hop : 0 < owner.length := List.length_pos.mpr ho
  have hrp : 0 < repository.length := List.length_pos.mpr hr
  have hps : t.parsed_spec =
      { owner := Node.new_raw
          ⟨⟨t.spec.range.start.line, t.spec.range.start.character + j0⟩,
           ⟨t.spec.range.start.line, t.spec.range.start.character + j0 + owner.length⟩⟩
          (String.mk owner)
        repository := some (Node.new_raw
          ⟨⟨t.spec.range.start.line, t.spec.range.start.character + j1⟩,
           ⟨t.spec.range.start.line, t.spec.range.start.character + j1 + repository.length⟩⟩
          (String.mk repository))
        version := some (Node.new_raw
          ⟨⟨t.spec.range.start.line, t.spec.range.start.character + j2⟩,
           ⟨t.spec.range.start.line, t.spec.range.start.character + j2 + version.length⟩⟩
          (String.mk version)) } := by
    simp only [Tool.parsed_spec, h1, h2, range_for_substring, hj0, hj1, hj2]
  rw [hps]
  refine ⟨_, _, rfl, rfl, rfl, rfl, rfl, ?_, ?_⟩ <;>
    (simp only [Node.new_raw]; omega)

/-- Witness for C3 at the repeated-token spec `"owner/owner@owner"`. -/
theorem repeated_tokens_get_distinct_ranges_witness :
    ∃ rnode vnode : Node String,
      toolC.parsed_spec.repository = some rnode ∧
      toolC.parsed_spec.version = some vnode ∧
      toolC.parsed_spec.owner.range.start.line = toolC.spec.range.start.line ∧
      rnode.range.start.line = toolC.spec.range.start.line ∧
      vnode.range.start.line = toolC.spec.range.start.line ∧
      toolC.parsed_spec.owner.range.start.character < rnode.range.start.character ∧
      rnode.range.start.character < vnode.range.start.character :=
  repeated_tokens_get_distinct_ranges toolC
    "owner".data "owner@owner".data "owner".data "owner".data
    (by decide) (by decide) (by decide) (by decide)

/-! ### Order lemmas for the sort comparator -/

theorem Position.eq_iff (a b : Position) :
    a = b ↔ a.line = b.line ∧ a.character = b.character := by
  constructor
  · rintro rfl
    exact ⟨rfl, rfl⟩
  · rintro ⟨h1, h2⟩
    cases a
    cases b
    cases h1
    cases h2
    rfl

theorem then_eq_gt (x y : Ordering) : x.then y = .gt ↔ (x = .gt ∨ (x = .eq ∧ y = .gt)) := by
  cases x <;> simp [Ordering.then]

theorem posCmp_eq_gt (a b : Position) : posCmp a b = .gt ↔ b < a := by
  rw [Position.lt_iff]
  unfold posCmp
  rcases h : compare a.line b.line with _ | _ | _
  · rw [Nat.compare_eq_lt] at h
    simp only [Ordering.then]
    exact iff_of_false (by decide) (by omega)
  · rw [Nat.compare_eq_eq] at h
    simp only [Ordering.then]
    rw [Nat.compare_eq_gt]
    omega
  · rw [Nat.compare_eq_gt] at h
    simp only [Ordering.then]
    exact iff_of_true (by trivial) (by omega)

theorem posCmp_eq_eq (a b : Position) :
    posCmp a b = .eq ↔ a.line = b.line ∧ a.character = b.character := by
  unfold posCmp
  rcases h : compare a.line b.line with _ | _ | _
  · rw [Nat.compare_eq_lt] at h
    simp only [Ordering.then]
    exact iff_of_false (by decide) (by omega)
  · rw [Nat.compare_eq_eq] at h
    simp only [Ordering.then]
    rw [Nat.compare_eq_eq]
    omega
  · rw [Nat.compare_eq_gt] at h
    simp only [Ordering.then]
    exact iff_of_false (by decide) (by omega)

theorem specLe_some_some {a b : Dependency} {sa sb : Node DependencySpec}
    (ha : a.spec = some sa) (hb : b.spec = some sb) :
    a.specLe b = true ↔
      (sa.range.start < sb.range.start ∨
        (sa.range.start = sb.range.start ∧ sa.range.stop ≤ sb.range.stop)) := by
  unfold Dependency.specLe Dependency.specCmp
  rw [ha, hb]
  simp only [decide_eq_true_eq, ne_eq, then_eq_gt, posCmp_eq_gt, posCmp_eq_eq,
    Position.lt_iff, Position.le_iff, Position.eq_iff]
  omega

theorem specLe_none_none {a b : Dependency}
    (ha : a.spec = none) (hb : b.spec = none) : a.specLe b = true := by
  unfold Dependency.specLe Dependency.specCmp
  rw [ha, hb]
  rfl

theorem specLe_some_none {a b : Dependency} {sa : Node DependencySpec}
    (ha : a.spec = some sa) (hb : b.spec = none) : a.specLe b = true := by
  unfold Dependency.specLe Dependency.specCmp
  rw [ha, hb]
  rfl

theorem specLe_none_some {a b : Dependency} {sb : Node DependencySpec}
    (ha : a.spec = none) (hb : b.spec = some sb) : a.specLe b = false := by
  unfold Dependency.specLe Dependency.specCmp
  rw [ha, hb]
  rfl

theorem specLe_total (a b : Dependency) : a.specLe b = true ∨ b.specLe a = true := by
  rcases ha : a.spec with _ | sa <;> rcases hb : b.spec with _ | sb
  · exact Or.inl (specLe_none_none ha hb)
  · exact Or.inr (specLe_some_none hb ha)
  · exact Or.inl (specLe_some_none ha hb)
  · rw [specLe_some_some ha hb, specLe_some_some hb ha]
    simp only [Position.lt_iff, Position.le_iff, Position.eq_iff]
    omega

theorem specLe_trans {a b c : Dependency}
    (hab : a.specLe b = true) (hbc : b.specLe c = true) : a.specLe c = true := by
  rcases ha : a.spec with _ | sa <;> rcases hb : b.spec with _ | sb <;>
    rcases hc : c.spec with _ | sc
  all_goals first
    | exact specLe_none_none ha hc
    | exact specLe_some_none ha hc
    | (rw [specLe_none_some hb hc] at hbc; simp at hbc)
    | (rw [specLe_none_some ha hb] at hab; simp at hab)
    | (rw [specLe_some_some ha hb] at hab
       rw [specLe_some_some hb hc] at hbc
       rw [specLe_some_some ha hc]
       simp only [Position.lt_iff, Position.le_iff, Position.eq_iff] at hab hbc ⊢
       omega)

/-! ### Stable insertion sort lemmas -/

theorem mem_insertDep {x a : Dependency} {l : List Dependency} :
    x ∈ insertDep a l ↔ x = a ∨ x ∈ l := by
  induction l with
  | nil => simp [insertDep]
  | cons b t ih =>
    by_cases h : Dependency.specLe a b = true
    · rw [insertDep, if_pos h]
      simp only [List.mem_cons]
    · rw [insertDep, if_neg h]
      simp only [List.mem_cons, ih]
      tauto

theorem perm_insertDep (a : Dependency) (l : List Dependency) :
    (insertDep a l).Perm (a :: l) := by
  induction l with
  | nil => simp [insertDep]
  | cons b t ih =>
    by_cases h : Dependency.specLe a b = true
    · rw [insertDep, if_pos h]
    · rw [insertDep, if_neg h]
      exact (ih.cons b).trans (List.Perm.swap a b t)

theorem sort_vec_perm (l : List Dependency) : (Dependency.sort_vec l).Perm l := by
  induction l with
  | nil => simp [Dependency.sort_vec]
  | cons a t ih => exact (perm_insertDep a (Dependency.sort_vec t)).trans (ih.cons a)

theorem pairwise_insertDep {a : Dependency} {l : List Dependency}
    (hl : l.Pairwise (fun x y => x.specLe y = true)) :
    (insertDep a l).Pairwise (fun x y => x.specLe y = true) := by
  induction l with
  | nil => simp [insertDep]
  | cons b t ih =>
    rw [List.pairwise_cons] at hl
    obtain ⟨hb, ht⟩ := hl
    by_cases h : Dependency.specLe a b = true
    · rw [insertDep, if_pos h, List.pairwise_cons]
      refine ⟨?_, List.pairwise_cons.mpr ⟨hb, ht⟩⟩
      intro y hy
      rcases List.mem_cons.mp hy with rfl | hyt
      · exact h
      · exact specLe_trans h (hb y hyt)
    · rw [insertDep, if_neg h, List.pairwise_cons]
      have hba : Dependency.specLe b a = true := (specLe_total a b).resolve_left h
      refine ⟨?_, ih ht⟩
      intro y hy
      rcases mem_insertDep.mp hy with rfl | hyt
      · exact hba
      · exact hb y hyt

theorem pairwise_sort_vec (l : List Dependency) :
    (Dependency.sort_vec l).Pairwise (fun x y => x.specLe y = true) := by
  induction l with
  | nil => simp [Dependency.sort_vec]
  | cons a t ih => exact pairwise_insertDep ih

/-- A dependency with a spec (`Full`). -/
def isFullDep (d : Dependency) : Bool :=
  d.spec.isSome

/-- A dependency without a spec (`Partial`). -/
def isPartialDep (d : Dependency) : Bool :=
  d.spec.isNone

theorem filter_insertDep_full {a : Dependency} {sa : Node DependencySpec}
    (ha : a.spec = some sa) (l : List Dependency) :
    (insertDep a l).filter isPartialDep = l.filter isPartialDep := by
  have hpa : isPartialDep a = false := by simp [isPartialDep, ha]
  induction l with
  | nil => simp [insertDep, hpa]
  | cons b t ih =>
    by_cases h : Dependency.specLe a b = true
    · rw [insertDep, if_pos h]
      simp [List.filter_cons, hpa]
    · rw [insertDep, if_neg h]
      simp only [List.filter_cons, ih]

theorem filter_insertDep_noSpec {a : Dependency}
    (ha : a.spec = none) (l : List Dependency) :
    (insertDep a l).filter isPartialDep = a :: l.filter isPartialDep := by
  have hpa : isPartialDep a = true := by simp [isPartialDep, ha]
  induction l with
  | nil => simp [insertDep, hpa]
  | cons b t ih =>
    rcases hb : b.spec with _ | sb
    · rw [insertDep, if_pos (specLe_none_none ha hb)]
      simp [List.filter_cons, hpa]
    · rw [insertDep, if_neg (by simp [specLe_none_some ha hb])]
      have hpb : isPartialDep b = false := by simp [isPartialDep, hb]
      simp only [List.filter_cons, hpb, ih]
      simp

theorem sort_vec_filter_noSpec (l : List Dependency) :
    (Dependency.sort_vec l).filter isPartialDep = l.filter isPartialDep := by
  induction l with
  | nil => rfl
  | cons a t ih =>
    show (insertDep a (Dependency.sort_vec t)).filter isPartialDep =
      (a :: t).filter isPartialDep
    rcases ha : a.spec with _ | sa
    · rw [filter_insertDep_noSpec ha, ih]
      simp [List.filter_cons, isPartialDep, ha]
    · rw [filter_insertDep_full ha, ih]
      simp [List.filter_cons, isPartialDep, ha]

theorem pairwise_full_front {l : List Dependency}
    (hp : l.Pairwise (fun x y => x.specLe y = true)) :
    l = l.filter isFullDep ++ l.filter isPartialDep := by
  induction l with
  | nil => rfl
  | cons a t ih =>
    rw [List.pairwise_cons] at hp
    obtain ⟨ha, ht⟩ := hp
    rcases hsa : a.spec with _ | sa
    · have hall : ∀ y ∈ t, isPartialDep y = true := by
        intro y hy
        rcases hsy : y.spec with _ | sy
        · simp [isPartialDep, hsy]
        · have h2 := ha y hy
          rw [specLe_none_some hsa hsy] at h2
          simp at h2
      have hff : t.filter isFullDep = [] := by
        rw [List.filter_eq_nil_iff]
        intro y hy
        have h2 := hall y hy
        simp only [isPartialDep, Option.isNone_iff_eq_none] at h2
        simp [isFullDep, h2]
      have hfp : t.filter isPartialDep = t := List.filter_eq_self.mpr hall
      simp [List.filter_cons, isFullDep, isPartialDep, hsa, hff, hfp]
    · have hfa : isFullDep a = true := by simp [isFullDep, hsa]
      have hpa : isPartialDep a = false := by simp [isPartialDep, hsa]
      simp only [List.filter_cons, hfa, hpa, if_true, if_false, Bool.false_eq_true,
        List.cons_append]
      exact congrArg (List.cons a) (ih ht)

/-! ### C6 -/

/-- C6: `sort_vec` permutes the input so that all `Full` entries (those
with a spec) come before all `Partial` entries (second conjunct), the
`Full` entries are ordered by ascending spec start with ties broken by
ascending spec end (third conjunct), the `Partial` entries keep their
relative input order (fourth conjunct, stability), and the comparator
regards any two spec-less entries as `Equal` (last conjunct). -/
theorem sort_vec_puts_full_entries_first (l : List Dependency) :
    (Dependency.sort_vec l).Perm l ∧
    Dependency.sort_vec l =
      (Dependency.sort_vec l).filter isFullDep ++
        (Dependency.sort_vec l).filter isPartialDep ∧
    ((Dependency.sort_vec l).filter isFullDep).Pairwise (fun x y =>
      ∀ sx sy : Node DependencySpec, x.spec = some sx → y.spec = some sy →
        sx.range.start < sy.range.start ∨
          (sx.range.start = sy.range.start ∧ sx.range.stop ≤ sy.range.stop)) ∧
    (Dependency.sort_vec l).filter isPartialDep = l.filter isPartialDep ∧
    (∀ (k1 k2 : DependencyKind) (n1 n2 : Node String),
      Dependency.specCmp (.Partial k1 n1) (.Partial k2 n2) = .eq) := by
  refine ⟨sort_vec_perm l, pairwise_full_front (pairwise_sort_vec l), ?_,
    sort_vec_filter_noSpec l, fun k1 k2 n1 n2 => rfl⟩
  exact (List.Pairwise.sublist (List.filter_sublist _) (pairwise_sort_vec l)).imp
    (fun hxy sx sy hx hy => (specLe_some_some hx hy).mp hxy)

/-! ### Fan-out lemmas -/

theorem tryJoinAll_map_ok {ε α : Type} (outs : List α) :
    tryJoinAll (outs.map (.ok : α → Except ε α)) = .ok outs := by
  induction outs with
  | nil => rfl
  | cons a t ih => simp [tryJoinAll, ih]

theorem tryJoinAll_error {ε α : Type} {l : List (Except ε α)} {e : ε}
    (h : .error e ∈ l) : ∃ e2, tryJoinAll l = .error e2 := by
  induction l with
  | nil => cases h
  | cons x t ih =>
    rcases List.mem_cons.mp h with rfl | ht
    · exact ⟨e, rfl⟩
    · cases x with
      | error e3 => exact ⟨e3, rfl⟩
      | ok a =>
        obtain ⟨e2, he2⟩ := ih ht
        exact ⟨e2, by simp [tryJoinAll, he2]⟩

/-! ### Concrete handler fixtures -/

/-- A handler whose collaborators all produce empty results. -/
def emptyRokit : Rokit :=
  { documents := fun _ => none
    queryRokitTomlDependencies := fun _ => []
    hoverFetch := fun _ _ => .ok none
    completionVersionFetch := fun _ _ => .ok (.array [])
    completionNameFetch := fun _ _ => .ok (.array [])
    completionAuthorFetch := fun _ _ => .ok (.array [])
    diagnosticsFetch := fun _ _ => .ok [] }

/-- Fix metadata as a diagnostic would serialize it. -/
def metaFix : CodeActionMetadata :=
  .latestVersion "file:///proj/rokit.toml" ⟨⟨1, 7⟩, ⟨1, 19⟩⟩ "\"2.0.0\""

/-- A diagnostic carrying a decodable resolution payload. -/
def diagWithPayload : Diagnostic :=
  ⟨"a newer version is available", some (.valid metaFix)⟩

/-- A code-action request on an unrecognized document name. -/
def foreignParams : CodeActionParams :=
  ⟨⟨some "foo.txt"⟩, ⟨[diagWithPayload]⟩⟩

/-- The URI of an open rokit manifest. -/
def urlRokit : Url := ⟨some "rokit.toml"⟩

/-- The open rokit manifest snapshot. -/
def docRokit : Document := ⟨"[tools]"⟩

/-- First extracted tool dependency. -/
def depT1 : SimpleDependency :=
  ⟨⟨"\"t1\"", ⟨⟨1, 0⟩, ⟨1, 4⟩⟩⟩, ⟨"\"a/b@1.0.0\"", ⟨⟨1, 7⟩, ⟨1, 19⟩⟩⟩⟩

/-- Second extracted tool dependency. -/
def depT2 : SimpleDependency :=
  ⟨⟨"\"t2\"", ⟨⟨2, 0⟩, ⟨2, 4⟩⟩⟩, ⟨"\"c/d@0.1.0\"", ⟨⟨2, 7⟩, ⟨2, 19⟩⟩⟩⟩

/-- A diagnostic produced by a per-entity check. -/
def diagOutdated : Diagnostic := ⟨"a newer version is available", none⟩

/-- A handler whose two per-entity checks both succeed. -/
def okRokit : Rokit :=
  { documents := fun u => if u = urlRokit then some docRokit else none
    queryRokitTomlDependencies := fun _ => [depT1, depT2]
    hoverFetch := fun _ _ => .ok none
    completionVersionFetch := fun _ _ => .ok (.array [])
    completionNameFetch := fun _ _ => .ok (.array [])
    completionAuthorFetch := fun _ _ => .ok (.array [])
    diagnosticsFetch := fun _ d => if d = depT1 then .ok [diagOutdated] else .ok [] }

/-- Like `okRokit` but the second per-entity check fails. -/
def errRokit : Rokit :=
  { okRokit with
    diagnosticsFetch := fun _ d =>
      if d = depT2 then .error ⟨"registry unreachable"⟩ else .ok [] }

/-- A dependency mid-edit: its spec is the empty quoted string `""`. -/
def depEmptySpec : SimpleDependency :=
  ⟨⟨"\"e\"", ⟨⟨5, 0⟩, ⟨5, 3⟩⟩⟩, ⟨"\"\"", ⟨⟨5, 6⟩, ⟨5, 8⟩⟩⟩⟩

/-- A handler whose author-completion collaborator returns one candidate. -/
def authorRokit : Rokit :=
  { documents := fun u => if u = urlRokit then some docRokit else none
    queryRokitTomlDependencies := fun _ => [depEmptySpec]
    hoverFetch := fun _ _ => .ok none
    completionVersionFetch := fun _ _ => .ok (.array [⟨"a-version"⟩])
    completionNameFetch := fun _ _ => .ok (.array [⟨"a-name"⟩])
    completionAuthorFetch := fun _ _ => .ok (.array [⟨"an-author"⟩])
    diagnosticsFetch := fun _ _ => .ok [] }

/-! ### C1 -/

/-- C1 counterexample: a code-action request on an unrecognized document
(`foo.txt`) whose context carries one decodable diagnostic still yields a
non-empty action list — `Rokit::code_action` never filters by document URI,
contradicting the claim that all four operations return empty results for
unrecognized documents. -/
theorem code_action_ignores_uri_counterexample :
    foreignParams.uri.fileName.any isRelevantFileName = false ∧
    Rokit.get_document emptyRokit foreignParams.uri = none ∧
    Rokit.code_action emptyRokit foreignParams =
      .ok [intoCodeAction metaFix diagWithPayload] ∧
    ([intoCodeAction metaFix diagWithPayload] : List CodeActionOrCommand) ≠ [] := by
  refine ⟨by decide, by decide, rfl, by decide⟩

/-- C1 (amended): for a request whose document URI does not name a
recognized manifest file, hover, completion and diagnostics return their
empty/no-op results immediately, for every store, extractor and
collaborator behaviour (so none is consulted); `code_action`, however,
never reads the URI — its result depends only on the diagnostics supplied
in the request context. -/
theorem irrelevant_uri_noop (h : Rokit) (uri : Url) (pos : Position)
    (ctx : CodeActionContext)
    (hirr : uri.fileName.any isRelevantFileName = false) :
    Rokit.hover h ⟨uri, pos⟩ = .ok none ∧
    Rokit.completion h ⟨uri, pos⟩ = .ok (.array []) ∧
    Rokit.diagnostics h ⟨uri⟩ = .ok [] ∧
    ∀ uri2 : Url, Rokit.code_action h ⟨uri, ctx⟩ = Rokit.code_action h ⟨uri2, ctx⟩ := by
  have hdoc : h.get_document uri = none := by
    unfold Rokit.get_document
    rw [hirr]
    rfl
  refine ⟨?_, ?_, ?_, fun uri2 => rfl⟩
  · simp only [Rokit.hover, hdoc]
  · simp only [Rokit.completion, hdoc]
  · simp only [Rokit.diagnostics, hdoc]

/-- Witness for the amended C1 at the concrete URI `foo.txt`. -/
theorem irrelevant_uri_noop_witness :
    Rokit.hover emptyRokit ⟨⟨some "foo.txt"⟩, ⟨0, 0⟩⟩ = .ok none ∧
    Rokit.completion emptyRokit ⟨⟨some "foo.txt"⟩, ⟨0, 0⟩⟩ = .ok (.array []) ∧
    Rokit.diagnostics emptyRokit ⟨⟨some "foo.txt"⟩⟩ = .ok [] ∧
    ∀ uri2 : Url, Rokit.code_action emptyRokit ⟨⟨some "foo.txt"⟩, ⟨[]⟩⟩ =
      Rokit.code_action emptyRokit ⟨uri2, ⟨[]⟩⟩ :=
  irrelevant_uri_noop emptyRokit ⟨some "foo.txt"⟩ ⟨0, 0⟩ ⟨[]⟩ (by decide)

/-! ### C2 -/

/-- C2: on a relevant document, if every per-entity diagnostic check
succeeds then the request returns the concatenation of the individual
lists in extraction order (first conjunct, with `outs` collected
positionally); if any single check fails, the whole request fails with an
error and no partial list is returned (second conjunct). -/
theorem diagnostics_all_or_nothing :
    (∀ (h : Rokit) (uri : Url) (doc : Document) (outs : List (List Diagnostic)),
      h.get_document uri = some doc →
      (h.queryRokitTomlDependencies doc).map (fun d => h.diagnosticsFetch doc d) =
        outs.map .ok →
      Rokit.diagnostics h ⟨uri⟩ = .ok outs.flatten) ∧
    (∀ (h : Rokit) (uri : Url) (doc : Document) (d : SimpleDependency) (e : LspError),
      h.get_document uri = some doc →
      d ∈ h.queryRokitTomlDependencies doc →
      h.diagnosticsFetch doc d = .error e →
      ∃ e2, Rokit.diagnostics h ⟨uri⟩ = .error e2) := by
  constructor
  · intro h uri doc outs hdoc hmap
    simp only [Rokit.diagnostics, hdoc]
    by_cases hemp : (h.queryRokitTomlDependencies doc).isEmpty
    · rw [if_pos hemp]
      have houts : outs = [] := by
        rcases outs with _ | ⟨o, os⟩
        · rfl
        · exfalso
          rw [List.isEmpty_iff] at hemp
          rw [hemp] at hmap
          simp at hmap
      subst houts
      rfl
    · rw [if_neg hemp, hmap, tryJoinAll_map_ok]
  · intro h uri doc d e hdoc hd hfetch
    have hmem : (Except.error e : Except LspError (List Diagnostic)) ∈
        (h.queryRokitTomlDependencies doc).map (fun t => h.diagnosticsFetch doc t) := by
      rw [← hfetch]
      exact List.mem_map_of_mem _ hd
    obtain ⟨e2, he2⟩ := tryJoinAll_error hmem
    refine ⟨e2, ?_⟩
    simp only [Rokit.diagnostics, hdoc]
    have hemp : (h.queryRokitTomlDependencies doc).isEmpty = false := by
      rcases hq : h.queryRokitTomlDependencies doc with _ | ⟨x, xs⟩
      · rw [hq] at hd
        cases hd
      · rfl
    rw [if_neg (by simp [hemp]), he2]

/-- Witness for C2: both checks succeed on `okRokit` and the flattened list
comes back; one failing check on `errRokit` fails the whole request. -/
theorem diagnostics_all_or_nothing_witness :
    Rokit.diagnostics okRokit ⟨urlRokit⟩ = .ok [diagOutdated] ∧
    ∃ e2, Rokit.diagnostics errRokit ⟨urlRokit⟩ = .error e2 :=
  ⟨diagnostics_all_or_nothing.1 okRokit urlRokit docRokit [[diagOutdated], []]
      (by decide) rfl,
    diagnostics_all_or_nothing.2 errRokit urlRokit docRokit depT2
      ⟨"registry unreachable"⟩ (by decide) (by decide) rfl⟩

/-! ### C4 -/

/-- C4: on a relevant document with a dependency found at the cursor, the
completed field is chosen by priority — version sub-range first, then
name sub-range, then the author arm, which also fires when the author text
is empty but the whole spec range contains the cursor; when nothing
matches the result is the empty completion list, never an error. -/
theorem completion_dispatch_priority (h : Rokit) (uri : Url) (pos : Position)
    (doc : Document) (found : SimpleDependency)
    (hdoc : h.get_document uri = some doc)
    (hfound : SimpleDependency.find_at_pos (h.queryRokitTomlDependencies doc) pos =
      some found) :
    (found.parsed_spec.version.any (fun v => v.contains pos) = true →
      Rokit.completion h ⟨uri, pos⟩ = h.completionVersionFetch doc found) ∧
    (found.parsed_spec.version.any (fun v => v.contains pos) = false →
      found.parsed_spec.name.any (fun n => n.contains pos) = true →
      Rokit.completion h ⟨uri, pos⟩ = h.completionNameFetch doc found) ∧
    (found.parsed_spec.version.any (fun v => v.contains pos) = false →
      found.parsed_spec.name.any (fun n => n.contains pos) = false →
      (found.parsed_spec.author.contains pos
        || ((Node.unquoted found.parsed_spec.author).isEmpty
              && found.spec.contains pos)) = true →
      Rokit.completion h ⟨uri, pos⟩ = h.completionAuthorFetch doc found) ∧
    (found.parsed_spec.version.any (fun v => v.contains pos) = false →
      found.parsed_spec.name.any (fun n => n.contains pos) = false →
      (found.parsed_spec.author.contains pos
        || ((Node.unquoted found.parsed_spec.author).isEmpty
              && found.spec.contains pos)) = false →
      Rokit.completion h ⟨uri, pos⟩ = .ok (.array [])) := by
  refine ⟨fun hv => ?_, fun hv hn => ?_, fun hv hn ha => ?_, fun hv hn ha => ?_⟩
  · simp [Rokit.completion, hdoc, hfound, hv]
  · simp [Rokit.completion, hdoc, hfound, hv, hn]
  · simp [Rokit.completion, hdoc, hfound, hv, hn, ha]
  · simp [Rokit.completion, hdoc, hfound, hv, hn, ha]

/-- Witness for C4: the empty-author fallback — the author text of the spec
`""` is empty and the cursor sits inside the spec range, so the author
collaborator is dispatched. -/
theorem completion_dispatch_priority_witness :
    Rokit.completion authorRokit ⟨urlRokit, ⟨5, 7⟩⟩ = .ok (.array [⟨"an-author"⟩]) :=
  ((completion_dispatch_priority authorRokit urlRokit ⟨5, 7⟩ docRokit depEmptySpec
      (by decide) (by decide)).2.2.1 (by decide) (by decide) (by decide)).trans rfl

/-- Witness for C6 at a concrete one-element list. -/
theorem sort_vec_puts_full_entries_first_witness :
    (Dependency.sort_vec [depP]).Perm [depP] ∧
    (Dependency.sort_vec [depP]).filter isPartialDep = [depP].filter isPartialDep :=
  ⟨(sort_vec_puts_full_entries_first [depP]).1,
    (sort_vec_puts_full_entries_first [depP]).2.2.2.1⟩
